import Mathlib

/-!
Verification of the assistant message-orchestration pipeline of the
`newsin` repository.

The development embeds, as executable Lean definitions:

* `validateMessages` from `src/lib/gemini-firebase.ts` (lines 226-273):
  the conversation-history validation used before calling the
  search-augmented completion API;
* the inner error handler of the non-streaming POST route
  (`src/app/assistant/api/route.ts`, lines 264-280);
* the stream processor of the current streaming POST route
  (`src/app/assistant/api/stream/route.ts`, lines 148-249), in the case
  where the secondary rewrite pass (`streamProcessContent`) returns
  `null` so raw buffered content is forwarded;
* the stream processor of the earlier streaming route variant
  (`src/unnamed/part_001`, first version, lines 113-175), which parses
  each `data:` payload and appends a `Sources:` citation block.

JavaScript strings are modelled as Lean `String` with all operations
performed on the underlying character list (JS `.length`, `.substring`,
`.includes`, `.startsWith` are over UTF-16 units; every concrete input
used below is ASCII, where the two notions of length coincide).
-/

namespace Newsin

/-- A chat role as used by the `Message` interface in
`src/lib/gemini-firebase.ts` (lines 186-189): `system`, `user` or
`assistant`. -/
inductive Role where
  | system
  | user
  | assistant
deriving DecidableEq

/-- A chat message: a role-tagged text turn (the `Message` interface,
`src/lib/gemini-firebase.ts` lines 186-189). -/
structure Message where
  role : Role
  content : String
deriving DecidableEq

/-- The `for (const msg of messages)` loop of `validateMessages`
(`src/lib/gemini-firebase.ts` lines 236-264), with the mutable `result`,
`systemMessagesDone` and `lastRole` variables made explicit state.
`lastRole = none` models `lastRole === null`. -/
def validateLoop : List Message → List Message → Bool → Option Role → List Message
  | [], result, _, _ => result
  | msg :: rest, result, systemMessagesDone, lastRole =>
    if msg.role = Role.system then
      if systemMessagesDone then
        validateLoop rest result systemMessagesDone lastRole
      else
        validateLoop rest (result ++ [msg]) systemMessagesDone lastRole
    else
      if lastRole = none ∧ msg.role ≠ Role.user then
        validateLoop rest result true lastRole
      else if lastRole = some msg.role then
        validateLoop rest result true lastRole
      else
        validateLoop rest (result ++ [msg]) true (some msg.role)

/-- The final adjustment of `validateMessages`
(`src/lib/gemini-firebase.ts` lines 266-270):
`if (result.length > 1 && result[result.length - 1].role !== 'user') result.pop()`,
with `pop` modelled by `dropLast`. -/
def finalCheck (result : List Message) : List Message :=
  match result.getLast? with
  | some lastMsg =>
    if 1 < result.length ∧ lastMsg.role ≠ Role.user then result.dropLast else result
  | none => result

/-- `validateMessages` (`src/lib/gemini-firebase.ts` lines 226-273): the
empty guard, the processing loop, and the final pop of a trailing
non-`user` turn.  The source function performs no `throw`; it is
embedded as a total function. -/
def validateMessages (messages : List Message) : List Message :=
  if messages.length = 0 then
    []
  else
    finalCheck (validateLoop messages [] false none)

/-- Accumulator-free form of `validateLoop`: produces exactly the
messages that the loop appends to `result`. -/
def collect : Option Role → Bool → List Message → List Message
  | _, _, [] => []
  | lastRole, systemMessagesDone, msg :: rest =>
    if msg.role = Role.system then
      if systemMessagesDone then collect lastRole systemMessagesDone rest
      else msg :: collect lastRole systemMessagesDone rest
    else
      if lastRole = none ∧ msg.role ≠ Role.user then collect lastRole true rest
      else if lastRole = some msg.role then collect lastRole true rest
      else msg :: collect (some msg.role) true rest

/-- Alternation invariant for the non-system part of the kept messages:
every turn is non-system, never repeats the previous kept role, and when
no non-system turn was kept yet (`lastRole = none`) the first kept turn
is a `user` turn. -/
def Alt : Option Role → List Message → Prop
  | _, [] => True
  | lastRole, msg :: rest =>
    msg.role ≠ Role.system ∧ lastRole ≠ some msg.role ∧
      (lastRole = none → msg.role = Role.user) ∧ Alt (some msg.role) rest

/-- Substring test on character lists: `pat` occurs contiguously in `l`. -/
def listHasInfix : List Char → List Char → Bool
  | l, pat =>
    pat.isPrefixOf l ||
      match l with
      | [] => false
      | _ :: rest => listHasInfix rest pat

/-- JS `String.prototype.includes`: `pat` is a substring of `s`. -/
def jsIncludes (s pat : String) : Bool :=
  listHasInfix s.data pat.data

/-- JS `String.prototype.startsWith`. -/
def jsStartsWith (s pre : String) : Bool :=
  pre.data.isPrefixOf s.data

/-- JS `String.prototype.substring(start)` (start clamped to the length). -/
def jsSubstringFrom (s : String) (start : Nat) : String :=
  ⟨s.data.drop start⟩

/-- A JavaScript `Error` value as observed by a catch block: its `name`
and `message` properties. -/
structure JsError where
  name : String
  message : String
deriving DecidableEq

/-- The JSON body and status of an error response built by
`NextResponse.json({ content, error }, { status })`. -/
structure ErrorResponse where
  status : Nat
  content : String
  error : String
deriving DecidableEq

/-- The timeout apology of the non-streaming POST handler
(`src/app/assistant/api/route.ts` line 270). -/
def timeoutApology : String :=
  "I'm sorry, but the request timed out. The Perplexity API is taking too long to respond. Please try a simpler query or try again later."

/-- The generic apology of the non-streaming POST handler
(`src/app/assistant/api/route.ts` line 271). -/
def genericApology : String :=
  "I'm sorry, but I couldn't retrieve the information you requested. There was an error communicating with the Perplexity API. Please check the console logs for more details."

/-- The inner catch of the non-streaming POST handler
(`src/app/assistant/api/route.ts` lines 264-280).  `some err` models a
caught value that satisfies `error instanceof Error`; `none` models any
other thrown value.  The handler picks the timeout apology when
`error.message.includes('timed out') || error.name === 'AbortError'`,
and always answers with HTTP 500, the chosen apology as `content` and
the error message as `error`. -/
def handlePerplexityError (e : Option JsError) : ErrorResponse :=
  let errorMessage :=
    match e with
    | some err =>
      if jsIncludes err.message "timed out" || err.name == "AbortError" then timeoutApology
      else genericApology
    | none => genericApology
  let errorField :=
    match e with
    | some err => err.message
    | none => "Unknown error"
  { status := 500, content := errorMessage, error := errorField }

/-- The fields of one parsed `data:` JSON payload that the earlier
streaming route's `processStream` (`src/unnamed/part_001`, lines
134-154) reads: `choices[0].delta.content` (`none` when the path is
absent) and `citations` (`[]` when absent).  `JSON.parse` of the
payload is upstream input, so events enter the model already parsed. -/
structure StreamEvent where
  contentDelta : Option String
  citations : List String
deriving DecidableEq

/-- One iteration of the `data:` line loop of the earlier streaming
route's `processStream` (`src/unnamed/part_001` lines 134-154): the
content delta, when present, is written to the client, and a non-empty
`citations` array replaces the remembered one.  The state is
`(citations, written so far)`. -/
def v1Step (st : List String × String) (ev : StreamEvent) : List String × String :=
  let written :=
    match ev.contentDelta with
    | some c => st.2 ++ c
    | none => st.2
  let citations := if 0 < ev.citations.length then ev.citations else st.1
  (citations, written)

/-- The `'\n\nSources:\n' + citations.map((url, i) => ...).join('\n')`
text appended by the earlier streaming route
(`src/unnamed/part_001` lines 163-167). -/
def citationsText (citations : List String) : String :=
  "\n\nSources:\n" ++
    String.intercalate "\n"
      (citations.enum.map fun p => "[" ++ toString (p.1 + 1) ++ "] " ++ p.2)

/-- The full client output of the earlier streaming route's
`processStream` (`src/unnamed/part_001` lines 113-175) on a stream of
parsed `data:` events: each content delta is forwarded in order, and
when the final remembered `citations` array is non-empty the
`Sources:` block is the last write. -/
def processStreamV1 (events : List StreamEvent) : String :=
  let st := events.foldl v1Step ([], "")
  if 0 < st.1.length then st.2 ++ citationsText st.1 else st.2

/-- Concatenation of the `choices[0].delta.content` fields present in a
stream of parsed events. -/
def deltaConcat : List StreamEvent → String
  | [] => ""
  | ev :: rest =>
    (match ev.contentDelta with
     | some c => c
     | none => "") ++ deltaConcat rest

/-- The last non-empty `citations` array seen in a stream of parsed
events (the loop overwrites `citations` on every non-empty array). -/
def lastCitations (events : List StreamEvent) : List String :=
  events.foldl (fun acc ev => if 0 < ev.citations.length then ev.citations else acc) []

/-- `MIN_CONTENT_LENGTH` (`src/app/assistant/api/stream/route.ts` line 11). -/
def MIN_CONTENT_LENGTH : Nat := 50

/-- `MAX_BUFFER_SIZE` (`src/app/assistant/api/stream/route.ts` line 14). -/
def MAX_BUFFER_SIZE : Nat := 200

/-- `MAX_WAIT_TIME` in milliseconds (`src/app/assistant/api/stream/route.ts` line 17). -/
def MAX_WAIT_TIME : Nat := 5000

/-- The `SENTENCE_ENDINGS` regex test `/[.!?]\s*$/.test(content)`
(`src/app/assistant/api/stream/route.ts` line 20): after trailing
whitespace is dropped, the content ends in `.`, `!` or `?`.  The
whitespace class is modelled by the ASCII members of `\s`, which covers
every concrete input in this development. -/
def sentenceEndingsTest (content : String) : Bool :=
  match content.data.reverse.dropWhile
      (fun c => c == ' ' || c == '\t' || c == '\n' || c == '\r' || c == '\x0c' || c == '\x0b') with
  | [] => false
  | c :: _ => c == '.' || c == '!' || c == '?'

/-- `COMPLETION_MARKERS` (`src/app/assistant/api/stream/route.ts` line 23). -/
def COMPLETION_MARKERS : List String := ["In conclusion", "To summarize", "## Summary"]

/-- `isCompleteThought` (`src/app/assistant/api/stream/route.ts` lines 30-33). -/
def isCompleteThought (content : String) : Bool :=
  sentenceEndingsTest content ||
    COMPLETION_MARKERS.any fun marker => jsIncludes content marker

/-- The mutable state of the current streaming route's `processStream`
(`src/app/assistant/api/stream/route.ts` lines 154-157), plus the
concatenation of everything written to the client so far. -/
structure RelayState where
  fullContent : String
  contentBuffer : String
  lastProcessTime : Nat
  processedLength : Nat
  written : String
deriving DecidableEq

/-- Processing of one upstream line by the current streaming route's
`processStream` (`src/app/assistant/api/stream/route.ts` lines
184-234), in the case where `streamProcessContent` returns `null`
(the secondary rewrite pass is unavailable, see `src/unnamed/part_000`
lines 83-85), so `newContent` is forwarded raw.  `now` is the value of
`Date.now()` while this line is handled.  Nothing in the modelled body
can throw, so the per-line catch (lines 225-233) is unreachable. -/
def relayLine (s : RelayState) (now : Nat) (line : String) : RelayState :=
  if jsStartsWith line "data: " then
    let content := jsSubstringFrom line 6
    if content = "[DONE]" then s
    else
      let contentBuffer := s.contentBuffer ++ content
      let fullContent := s.fullContent ++ content
      let timeWaiting := now - s.lastProcessTime
      let hasMinLength := decide (MIN_CONTENT_LENGTH ≤ contentBuffer.length)
      let isComplete := isCompleteThought contentBuffer
      let isOversize := decide (MAX_BUFFER_SIZE ≤ contentBuffer.length)
      let waitedTooLong := decide (MAX_WAIT_TIME ≤ timeWaiting)
      if hasMinLength && (isComplete || isOversize || waitedTooLong) then
        let newContent := jsSubstringFrom contentBuffer s.processedLength
        if 0 < newContent.length then
          { fullContent := fullContent, contentBuffer := "", lastProcessTime := now,
            processedLength := contentBuffer.length, written := s.written ++ newContent }
        else
          { fullContent := fullContent, contentBuffer := "", lastProcessTime := now,
            processedLength := s.processedLength, written := s.written }
      else
        { s with fullContent := fullContent, contentBuffer := contentBuffer }
  else s

/-- The `done` branch of the current streaming route's `processStream`
(`src/app/assistant/api/stream/route.ts` lines 163-175), again with
`streamProcessContent` returning `null`: any remaining buffer is
flushed raw. -/
def relayFinish (s : RelayState) : String :=
  if 0 < s.contentBuffer.length then s.written ++ s.contentBuffer else s.written

/-- The concatenation of everything the current streaming route's
`processStream` writes to the client, for an upstream stream delivered
as the given timestamped non-blank lines (`t0` is `Date.now()` at
initialisation), when `streamProcessContent` returns `null` throughout. -/
def processStreamRelay (t0 : Nat) (lines : List (Nat × String)) : String :=
  relayFinish (lines.foldl (fun s e => relayLine s e.1 e.2) ⟨"", "", t0, 0, ""⟩)

theorem validateLoop_eq_collect (msgs : List Message) :
    ∀ (result : List Message) (systemMessagesDone : Bool) (lastRole : Option Role),
    validateLoop msgs result systemMessagesDone lastRole =
      result ++ collect lastRole systemMessagesDone msgs := by
  induction msgs with
  | nil => intro result systemMessagesDone lastRole; simp [validateLoop, collect]
  | cons msg rest ih =>
    intro result systemMessagesDone lastRole
    simp only [validateLoop, collect]
    split
    · split
      · exact ih ..
      · rw [ih]; simp
    · split
      · exact ih ..
      · split
        · exact ih ..
        · rw [ih]; simp

theorem alt_no_system {t : List Message} : ∀ {lastRole : Option Role}, Alt lastRole t →
    ∀ m ∈ t, m.role ≠ Role.system := by
  induction t with
  | nil => intro _ _ m hm; simp at hm
  | cons msg rest ih =>
    intro lastRole h m hm
    obtain ⟨h1, _, _, h4⟩ := h
    rcases List.mem_cons.mp hm with rfl | hm'
    · exact h1
    · exact ih h4 m hm'

theorem alt_chain {t : List Message} : ∀ {lastRole : Option Role}, Alt lastRole t →
    List.Chain' (fun x y => x.role ≠ y.role) t := by
  induction t with
  | nil => intro _ _; simp
  | cons msg rest ih =>
    intro lastRole h
    obtain ⟨_, _, _, h4⟩ := h
    cases rest with
    | nil => simp
    | cons b r =>
      rw [List.chain'_cons]
      refine ⟨fun heq => ?_, ih h4⟩
      obtain ⟨_, hb2, _, _⟩ := h4
      exact hb2 (congrArg some heq)

theorem alt_prefix : ∀ {t' t : List Message} {lastRole : Option Role},
    Alt lastRole t → t' <+: t → Alt lastRole t' := by
  intro t'
  induction t' with
  | nil => intro t lastRole _ _; trivial
  | cons msg rest ih =>
    intro t lastRole h hp
    obtain ⟨s, hs⟩ := hp
    cases t with
    | nil => simp at hs
    | cons tm tr =>
      rw [List.cons_append] at hs
      injection hs with h1 h2
      subst h1
      obtain ⟨ha1, ha2, ha3, ha4⟩ := h
      exact ⟨ha1, ha2, ha3, ih ha4 ⟨s, h2⟩⟩

theorem alt_pop : ∀ (t : List Message) (lastRole : Option Role), Alt lastRole t →
    ∀ m, t.getLast? = some m → m.role = Role.assistant →
    (∃ m', t.dropLast.getLast? = some m' ∧ m'.role = Role.user) ∨ t = [m] := by
  intro t
  induction t with
  | nil => intro _ _ m hm _; simp at hm
  | cons a rest ih =>
    intro lastRole h m hm hma
    cases rest with
    | nil =>
      right
      simp at hm
      rw [hm]
    | cons b r =>
      left
      rw [List.getLast?_cons_cons] at hm
      obtain ⟨ha1, ha2, _, h4⟩ := h
      rcases ih (some a.role) h4 m hm hma with ⟨m', hm'1, hm'2⟩ | heq
      · refine ⟨m', ?_, hm'2⟩
        rw [List.dropLast_cons₂]
        cases hd : (b :: r).dropLast with
        | nil => rw [hd] at hm'1; simp at hm'1
        | cons c cr =>
          rw [hd] at hm'1
          rw [List.getLast?_cons_cons]
          exact hm'1
      · -- the tail is the single assistant message `m`; the head must be a user turn
        injection heq with hb hr
        subst hb; subst hr
        obtain ⟨_, hb2, _, _⟩ := h4
        have haru : a.role = Role.user := by
          cases har : a.role
          · exact absurd har ha1
          · rfl
          · exact absurd (by rw [har, hma]) hb2
        exact ⟨a, by simp, haru⟩

theorem collect_decomp : ∀ (msgs : List Message) (lastRole : Option Role) (sysDone : Bool),
    ∃ s t, collect lastRole sysDone msgs = s ++ t ∧ (∀ m ∈ s, m.role = Role.system) ∧
      (sysDone = true → s = []) ∧ Alt lastRole t := by
  intro msgs
  induction msgs with
  | nil =>
    intro lastRole sysDone
    exact ⟨[], [], by simp [collect], by simp, by simp, trivial⟩
  | cons msg rest ih =>
    intro lastRole sysDone
    by_cases h1 : msg.role = Role.system
    · by_cases h2 : sysDone = true
      · obtain ⟨s, t, he, hs, hd, ha⟩ := ih lastRole sysDone
        exact ⟨s, t, by rw [collect, if_pos h1, if_pos h2, he], hs, hd, ha⟩
      · obtain ⟨s, t, he, hs, _, ha⟩ := ih lastRole sysDone
        refine ⟨msg :: s, t, by rw [collect, if_pos h1, if_neg h2, he, List.cons_append], ?_, fun hx => absurd hx h2, ha⟩
        intro m hm
        rcases List.mem_cons.mp hm with rfl | hm'
        · exact h1
        · exact hs m hm'
    · by_cases hc1 : lastRole = none ∧ msg.role ≠ Role.user
      · obtain ⟨s, t, he, _, hd, ha⟩ := ih lastRole true
        rw [hd rfl] at he
        simp only [List.nil_append] at he
        exact ⟨[], t, by rw [collect, if_neg h1, if_pos hc1, List.nil_append, he], by simp, fun _ => rfl, ha⟩
      · by_cases hc2 : lastRole = some msg.role
        · obtain ⟨s, t, he, _, hd, ha⟩ := ih lastRole true
          rw [hd rfl] at he
          simp only [List.nil_append] at he
          exact ⟨[], t, by rw [collect, if_neg h1, if_neg hc1, if_pos hc2, List.nil_append, he], by simp, fun _ => rfl, ha⟩
        · obtain ⟨s, t, he, _, hd, ha⟩ := ih (some msg.role) true
          rw [hd rfl] at he
          simp only [List.nil_append] at he
          refine ⟨[], msg :: t, by rw [collect, if_neg h1, if_neg hc1, if_neg hc2, List.nil_append, he], by simp, fun _ => rfl, ?_⟩
          refine ⟨h1, hc2, ?_, ha⟩
          intro hnone
          by_contra hnu
          exact hc1 ⟨hnone, hnu⟩

theorem collect_sublist : ∀ (msgs : List Message) (lastRole : Option Role) (sysDone : Bool),
    List.Sublist (collect lastRole sysDone msgs) msgs := by
  intro msgs
  induction msgs with
  | nil => intro _ _; simp [collect]
  | cons msg rest ih =>
    intro lastRole sysDone
    simp only [collect]
    split
    · split
      · exact (ih ..).cons msg
      · exact (ih ..).cons₂ msg
    · split
      · exact (ih ..).cons msg
      · split
        · exact (ih ..).cons msg
        · exact (ih ..).cons₂ msg

theorem collect_keeps_user : ∀ (msgs : List Message) (lastRole : Option Role) (sysDone : Bool),
    (∃ m ∈ msgs, m.role = Role.user) →
    (∃ m ∈ collect lastRole sysDone msgs, m.role = Role.user) ∨ lastRole = some Role.user := by
  intro msgs
  induction msgs with
  | nil => intro _ _ h; simp at h
  | cons msg rest ih =>
    intro lastRole sysDone h
    by_cases hmu : msg.role = Role.user
    · -- the head itself is a user turn
      by_cases h1 : msg.role = Role.system
      · rw [h1] at hmu; cases hmu
      · by_cases hc1 : lastRole = none ∧ msg.role ≠ Role.user
        · exact absurd hmu hc1.2
        · by_cases hc2 : lastRole = some msg.role
          · right; rw [hc2, hmu]
          · left
            rw [collect, if_neg h1, if_neg hc1, if_neg hc2]
            exact ⟨msg, List.mem_cons_self .., hmu⟩
    · -- the user turn claimed by `h` lives in `rest`
      have hrest : ∃ m ∈ rest, m.role = Role.user := by
        rcases h with ⟨m, hm, hmu'⟩
        rcases List.mem_cons.mp hm with rfl | hm'
        · exact absurd hmu' hmu
        · exact ⟨m, hm', hmu'⟩
      by_cases h1 : msg.role = Role.system
      · rcases ih lastRole sysDone hrest with ⟨m, hm, hmu'⟩ | hlast
        · left
          rw [collect, if_pos h1]
          split
          · exact ⟨m, hm, hmu'⟩
          · exact ⟨m, List.mem_cons_of_mem msg hm, hmu'⟩
        · right; exact hlast
      · by_cases hc1 : lastRole = none ∧ msg.role ≠ Role.user
        · rcases ih lastRole true hrest with ⟨m, hm, hmu'⟩ | hlast
          · left; rw [collect, if_neg h1, if_pos hc1]; exact ⟨m, hm, hmu'⟩
          · right; exact hlast
        · by_cases hc2 : lastRole = some msg.role
          · rcases ih lastRole true hrest with ⟨m, hm, hmu'⟩ | hlast
            · left; rw [collect, if_neg h1, if_neg hc1, if_pos hc2]; exact ⟨m, hm, hmu'⟩
            · right; exact hlast
          · rcases ih (some msg.role) true hrest with ⟨m, hm, hmu'⟩ | hlast
            · left
              rw [collect, if_neg h1, if_neg hc1, if_neg hc2]
              exact ⟨m, List.mem_cons_of_mem msg hm, hmu'⟩
            · injection hlast with hlast'
              exact absurd hlast' hmu

theorem finalCheck_sublist (l : List Message) : List.Sublist (finalCheck l) l := by
  rw [finalCheck]
  split
  · split
    · exact List.dropLast_sublist l
    · exact List.Sublist.refl l
  · exact List.Sublist.refl l

theorem finalCheck_shape (s t : List Message) (hs : ∀ m ∈ s, m.role = Role.system)
    (ha : Alt none t) :
    ∃ s' t', finalCheck (s ++ t) = s' ++ t' ∧ (∀ m ∈ s', m.role = Role.system) ∧
      Alt none t' ∧ (t' = [] ∨ ∃ m, t'.getLast? = some m ∧ m.role = Role.user) ∧
      (t ≠ [] → t' ≠ []) := by
  cases t with
  | nil =>
    refine ⟨finalCheck (s ++ []), [], by simp, ?_, trivial, Or.inl rfl, fun hx => absurd rfl hx⟩
    intro m hm
    exact hs m ((finalCheck_sublist (s ++ [])).subset hm |> (by simpa using ·))
  | cons tm tr =>
    set t := tm :: tr with ht
    obtain ⟨m, hm⟩ : ∃ m, t.getLast? = some m := by
      cases hx : t.getLast? with
      | some m => exact ⟨m, rfl⟩
      | none => rw [List.getLast?_eq_none_iff] at hx; simp [ht] at hx
    have hlast : (s ++ t).getLast? = some m := by
      rw [List.getLast?_append, hm]; rfl
    have hmmem : m ∈ t := List.mem_of_mem_getLast? hm
    cases hmrole : m.role with
    | system => exact absurd hmrole (alt_no_system ha m hmmem)
    | user =>
      refine ⟨s, t, ?_, hs, ha, Or.inr ⟨m, hm, hmrole⟩, fun _ => by simp [ht]⟩
      simp only [finalCheck, hlast]
      rw [if_neg]
      intro hcon
      exact hcon.2 hmrole
    | assistant =>
      rcases alt_pop t none ha m hm hmrole with ⟨m', hm'1, hm'2⟩ | heq
      · have htne : t.dropLast ≠ [] := by
          intro hx; rw [hx] at hm'1; simp at hm'1
        have hlen : 1 < (s ++ t).length := by
          have h1 : 1 ≤ t.dropLast.length := List.length_pos.mpr htne
          have h2 : t.dropLast.length = t.length - 1 := List.length_dropLast t
          rw [List.length_append]
          omega
        refine ⟨s, t.dropLast, ?_, hs, alt_prefix ha (List.dropLast_prefix t),
          Or.inr ⟨m', hm'1, hm'2⟩, fun _ => htne⟩
        simp only [finalCheck, hlast]
        rw [if_pos ⟨hlen, by simp [hmrole]⟩]
        exact List.dropLast_append_of_ne_nil s (by simp [ht])
      · -- `t = [m]` would force the single non-system turn to be a user turn
        exfalso
        rw [heq] at ha
        obtain ⟨_, _, h3, _⟩ := ha
        rw [h3 rfl] at hmrole
        cases hmrole

theorem validateMessages_shape (msgs : List Message) :
    ∃ s t, validateMessages msgs = s ++ t ∧ (∀ m ∈ s, m.role = Role.system) ∧ Alt none t ∧
      (t = [] ∨ ∃ m, t.getLast? = some m ∧ m.role = Role.user) ∧
      ((∃ m ∈ msgs, m.role = Role.user) → t ≠ []) := by
  by_cases hempty : msgs.length = 0
  · refine ⟨[], [], by simp [validateMessages, hempty], by simp, trivial, Or.inl rfl, ?_⟩
    intro hu
    rw [List.length_eq_zero] at hempty
    subst hempty
    simp at hu
  · obtain ⟨s, t, he, hs, _, ha⟩ := collect_decomp msgs none false
    obtain ⟨s', t', hfc, hs', ha', hend', hne'⟩ := finalCheck_shape s t hs ha
    have hv : validateMessages msgs = finalCheck (s ++ t) := by
      rw [validateMessages, if_neg hempty, validateLoop_eq_collect, List.nil_append, he]
    refine ⟨s', t', by rw [hv, hfc], hs', ha', hend', ?_⟩
    intro hu
    apply hne'
    rcases collect_keeps_user msgs none false hu with ⟨m, hm, hmu⟩ | hcon
    · rw [he] at hm
      rcases List.mem_append.mp hm with hms | hmt
      · have hsys := hs m hms
        rw [hmu] at hsys
        cases hsys
      · intro htnil
        rw [htnil] at hmt
        simp at hmt
    · cases hcon

theorem chain'_of_system (s : List Message) (hs : ∀ m ∈ s, m.role = Role.system) :
    List.Chain' (fun x y => x.role ≠ Role.system → y.role ≠ Role.system → x.role ≠ y.role) s := by
  induction s with
  | nil => simp
  | cons a rest ih =>
    cases rest with
    | nil => simp
    | cons b r =>
      rw [List.chain'_cons]
      refine ⟨fun hxa _ => absurd (hs a (by simp)) hxa, ih ?_⟩
      intro m hm
      exact hs m (List.mem_cons_of_mem a hm)

theorem takeWhile_append_all {p : Message → Bool} :
    ∀ (s t : List Message), (∀ m ∈ s, p m = true) →
    (s ++ t).takeWhile p = s ++ t.takeWhile p := by
  intro s
  induction s with
  | nil => intro t _; simp
  | cons a rest ih =>
    intro t hp
    rw [List.cons_append, List.takeWhile_cons_of_pos (hp a (by simp)),
      ih t (fun m hm => hp m (List.mem_cons_of_mem a hm)), List.cons_append]

/-- C1 (counterexample): the claim "the output of `validateMessages`
either is empty or ends with a turn whose role is `user`" fails on the
one-element input `[system]`: the output is the same non-empty list and
its last turn has role `system` (the final pop at lines 266-270 only
fires when more than one turn was kept). -/
theorem validateMessages_single_system_output :
    validateMessages [⟨Role.system, "You are a helpful AI assistant."⟩] ≠ [] ∧
    (validateMessages [⟨Role.system, "You are a helpful AI assistant."⟩]).getLast?.map
        Message.role = some Role.system := by
  decide

/-- C1 (amended): for every input list, the output of `validateMessages`
is empty, or ends with a turn whose role is `user`, or consists entirely
of `system` turns. -/
theorem validateMessages_ends_user_or_all_system (msgs : List Message) :
    validateMessages msgs = [] ∨
    (∃ m, (validateMessages msgs).getLast? = some m ∧ m.role = Role.user) ∨
    (∀ m ∈ validateMessages msgs, m.role = Role.system) := by
  obtain ⟨s, t, he, hs, _, hend, _⟩ := validateMessages_shape msgs
  rcases hend with rfl | ⟨m, hm, hmu⟩
  · right; right
    rw [he]
    intro m hm
    exact hs m (by simpa using hm)
  · right; left
    refine ⟨m, ?_, hmu⟩
    rw [he, List.getLast?_append, hm]
    rfl

/-- C2 (counterexample): on the three-turn input `[user, user, assistant]`
the output of `validateMessages` is the single turn `[user]` (the first
user turn), not the claimed two-turn `[user, assistant]`: the second
user turn is dropped for alternation, and the trailing assistant turn —
then last — is removed by the final ends-with-user pop. -/
theorem validateMessages_uua_not_two_turns :
    validateMessages [⟨Role.user, "q1"⟩, ⟨Role.user, "q2"⟩, ⟨Role.assistant, "a1"⟩] =
      [⟨Role.user, "q1"⟩] ∧
    (validateMessages
      [⟨Role.user, "q1"⟩, ⟨Role.user, "q2"⟩, ⟨Role.assistant, "a1"⟩]).length ≠ 2 := by
  decide

/-- C2 (amended): for arbitrary contents, `validateMessages` applied to
the three-turn input `[user, user, assistant]` returns the one-turn
output `[user]` holding the first user turn. -/
theorem validateMessages_uua (c₁ c₂ c₃ : String) :
    validateMessages [⟨Role.user, c₁⟩, ⟨Role.user, c₂⟩, ⟨Role.assistant, c₃⟩] =
      [⟨Role.user, c₁⟩] := rfl

/-- C3 (confirmed): in the output of `validateMessages`, no two
consecutive turns share the same non-system role: for every adjacent
pair of output positions, if both turns are non-system their roles
differ (`List.Chain'` states the relation for every adjacent pair). -/
theorem validateMessages_no_consecutive_same_role (msgs : List Message) :
    List.Chain' (fun x y => x.role ≠ Role.system → y.role ≠ Role.system → x.role ≠ y.role)
      (validateMessages msgs) := by
  obtain ⟨s, t, he, hs, ha, _, _⟩ := validateMessages_shape msgs
  rw [he, List.chain'_append]
  refine ⟨chain'_of_system s hs, (alt_chain ha).imp fun a b hab _ _ => hab, ?_⟩
  intro x hx y hy hxs _
  exact absurd (hs x (List.mem_of_mem_getLast? hx)) hxs

/-- C4 (confirmed): the output of `validateMessages` splits into a
prefix of `system` turns followed by a suffix with no `system` turn at
all, so no `system` turn appears after the first non-system turn. -/
theorem validateMessages_system_prefix (msgs : List Message) :
    ∃ s t, validateMessages msgs = s ++ t ∧ (∀ m ∈ s, m.role = Role.system) ∧
      (∀ m ∈ t, m.role ≠ Role.system) := by
  obtain ⟨s, t, he, hs, ha, _, _⟩ := validateMessages_shape msgs
  exact ⟨s, t, he, hs, alt_no_system ha⟩

/-- C5 (counterexample): the claim "the output contains at most one
`system` turn" fails on `[system, system, user]`: both leading system
turns are kept (the loop at lines 238-244 keeps every system turn seen
before the first non-system turn), so the output holds two `system`
turns. -/
theorem validateMessages_keeps_two_systems :
    validateMessages [⟨Role.system, "s1"⟩, ⟨Role.system, "s2"⟩, ⟨Role.user, "q"⟩] =
      [⟨Role.system, "s1"⟩, ⟨Role.system, "s2"⟩, ⟨Role.user, "q"⟩] ∧
    ((validateMessages [⟨Role.system, "s1"⟩, ⟨Role.system, "s2"⟩, ⟨Role.user, "q"⟩]).filter
      fun m => decide (m.role = Role.system)).length = 2 := by
  decide

/-- C5 (amended): the output of `validateMessages` may contain several
`system` turns, but they all form a leading block: the system turns of
the output are exactly its longest all-system prefix (system turns
after the first non-system turn are dropped, yet a run of leading
system turns is kept whole). -/
theorem validateMessages_systems_lead (msgs : List Message) :
    ((validateMessages msgs).filter fun m => decide (m.role = Role.system)) =
      ((validateMessages msgs).takeWhile fun m => decide (m.role = Role.system)) := by
  obtain ⟨s, t, he, hs, ha, _, _⟩ := validateMessages_shape msgs
  rw [he, List.filter_append, takeWhile_append_all s t (fun m hm => by simp [hs m hm])]
  have h1 : (s.filter fun m => decide (m.role = Role.system)) = s :=
    List.filter_eq_self.mpr fun a hsa => by simp [hs a hsa]
  have h2 : (t.filter fun m => decide (m.role = Role.system)) = [] :=
    List.filter_eq_nil_iff.mpr fun a hta => by simp [alt_no_system ha a hta]
  have h3 : (t.takeWhile fun m => decide (m.role = Role.system)) = [] := by
    cases t with
    | nil => rfl
    | cons a r =>
      exact List.takeWhile_cons_of_neg (by simp [alt_no_system ha a (by simp)])
  rw [h1, h2, h3]

/-- C6 (confirmed): `validateMessages` is total (the embedded function
never fails) and its output is a subsequence of its input: every output
turn is an input turn, unchanged and in the same relative order. -/
theorem validateMessages_sublist (msgs : List Message) :
    List.Sublist (validateMessages msgs) msgs := by
  rw [validateMessages]
  split
  · exact List.nil_sublist msgs
  · rw [validateLoop_eq_collect, List.nil_append]
    exact (finalCheck_sublist _).trans (collect_sublist msgs none false)

/-- C9 (confirmed): for every input containing at least one `user` turn,
the output of `validateMessages` is non-empty and its first non-system
turn exists and has role `user`. -/
theorem validateMessages_keeps_user (msgs : List Message)
    (h : ∃ m ∈ msgs, m.role = Role.user) :
    validateMessages msgs ≠ [] ∧
    ∃ m, (validateMessages msgs).find? (fun m => decide (m.role ≠ Role.system)) = some m ∧
      m.role = Role.user := by
  obtain ⟨s, t, he, hs, ha, _, hne⟩ := validateMessages_shape msgs
  have htne := hne h
  cases ht : t with
  | nil => exact absurd ht htne
  | cons tm tr =>
    subst ht
    constructor
    · rw [he]; simp
    · have hhead : tm.role = Role.user := by
        obtain ⟨_, _, h3, _⟩ := ha
        exact h3 rfl
      refine ⟨tm, ?_, hhead⟩
      rw [he, List.find?_append]
      have h1 : (s.find? fun m => decide (m.role ≠ Role.system)) = none := by
        rw [List.find?_eq_none]
        intro x hx
        simp [hs x hx]
      have h2 : (List.find? (fun m => decide (m.role ≠ Role.system)) (tm :: tr)) = some tm :=
        List.find?_cons_of_pos _ (by simp [hhead])
      rw [h1, h2]
      rfl

/-- Witness for C9: the concrete one-turn input `[user]` satisfies the
hypothesis, and on it the conclusion evaluates as the theorem states. -/
theorem validateMessages_keeps_user_witness :
    (∃ m ∈ [Message.mk Role.user "hello"], m.role = Role.user) ∧
    (validateMessages [Message.mk Role.user "hello"] ≠ [] ∧
      ∃ m, (validateMessages [Message.mk Role.user "hello"]).find?
          (fun m => decide (m.role ≠ Role.system)) = some m ∧ m.role = Role.user) :=
  ⟨⟨Message.mk Role.user "hello", by simp, rfl⟩,
    validateMessages_keeps_user [Message.mk Role.user "hello"]
      ⟨Message.mk Role.user "hello", by simp, rfl⟩⟩

/-- C7 (counterexample): the claim that the timeout apology is selected
"only by substring-matching the error message" fails: a caught error
whose `name` is `AbortError` but whose message does not contain
`timed out` still receives the timeout apology, because the handler's
condition at lines 268-269 also tests `error.name === 'AbortError'`. -/
theorem handlePerplexityError_abort_without_substring :
    (handlePerplexityError (some ⟨"AbortError", "fetch failed"⟩)).content = timeoutApology ∧
    jsIncludes "fetch failed" "timed out" = false := by
  decide

/-- C7 (amended): whenever the completion call fails, the non-streaming
POST handler answers HTTP 500 with a user-facing apology `content` and
a machine-readable `error` field carrying the error message (or
`Unknown error` for a non-`Error` value); the timeout apology (rather
than the generic one) is selected exactly when the caught value is an
`Error` whose message contains `timed out` or whose name is
`AbortError`. -/
theorem handlePerplexityError_spec (e : Option JsError) :
    (handlePerplexityError e).status = 500 ∧
    ((handlePerplexityError e).content = timeoutApology ∨
      (handlePerplexityError e).content = genericApology) ∧
    ((handlePerplexityError e).content = timeoutApology ↔
      ∃ err, e = some err ∧
        (jsIncludes err.message "timed out" = true ∨ err.name = "AbortError")) ∧
    (handlePerplexityError e).error =
      (match e with
        | some err => err.message
        | none => "Unknown error") := by
  have hne : timeoutApology ≠ genericApology := by decide
  cases e with
  | none =>
    refine ⟨rfl, Or.inr rfl, ?_, rfl⟩
    constructor
    · intro hx
      exact absurd hx.symm hne
    · rintro ⟨err, hx, _⟩
      cases hx
  | some err =>
    simp only [handlePerplexityError]
    by_cases hcond : (jsIncludes err.message "timed out" || err.name == "AbortError") = true
    · rw [if_pos hcond]
      refine ⟨trivial, Or.inl rfl, ?_, trivial⟩
      constructor
      · intro _
        refine ⟨err, rfl, ?_⟩
        rcases Bool.or_eq_true _ _ |>.mp hcond with h | h
        · exact Or.inl h
        · exact Or.inr (beq_iff_eq.mp h)
      · intro _
        rfl
    · rw [if_neg hcond]
      refine ⟨trivial, Or.inr rfl, ?_, trivial⟩
      constructor
      · intro hx
        exact absurd hx.symm hne
      · rintro ⟨err', heq, hor⟩
        injection heq with heq'
        subst heq'
        refine absurd (Bool.or_eq_true _ _ |>.mpr ?_) hcond
        rcases hor with h | h
        · exact Or.inl h
        · exact Or.inr (beq_iff_eq.mpr h)

theorem foldl_v1Step (events : List StreamEvent) :
    ∀ (cits : List String) (out : String),
    events.foldl v1Step (cits, out) =
      (events.foldl (fun acc ev => if 0 < ev.citations.length then ev.citations else acc) cits,
        out ++ deltaConcat events) := by
  induction events with
  | nil =>
    intro cits out
    simp [deltaConcat, String.append_empty]
  | cons ev rest ih =>
    intro cits out
    rw [List.foldl_cons, List.foldl_cons, deltaConcat]
    cases hc : ev.contentDelta with
    | some c => simp [v1Step, hc, ih, String.append_assoc]
    | none => simp [v1Step, hc, ih, String.empty_append]

theorem lastCitations_ne_nil_of_acc : ∀ (events : List StreamEvent) (acc : List String),
    acc ≠ [] →
    events.foldl (fun acc ev => if 0 < ev.citations.length then ev.citations else acc) acc ≠ [] := by
  intro events
  induction events with
  | nil =>
    intro acc h
    simpa using h
  | cons ev rest ih =>
    intro acc h
    rw [List.foldl_cons]
    by_cases hc : 0 < ev.citations.length
    · exact ih _ (by rw [if_pos hc]; exact List.length_pos.mp hc)
    · exact ih _ (by rw [if_neg hc]; exact h)

theorem lastCitations_ne_nil : ∀ (events : List StreamEvent) (acc : List String),
    (∃ ev ∈ events, ev.citations ≠ []) →
    events.foldl (fun acc ev => if 0 < ev.citations.length then ev.citations else acc) acc ≠ [] := by
  intro events
  induction events with
  | nil =>
    intro acc h
    simp at h
  | cons ev rest ih =>
    intro acc h
    rw [List.foldl_cons]
    by_cases hev : ev.citations = []
    · have hrest : ∃ e ∈ rest, e.citations ≠ [] := by
        rcases h with ⟨e, he, hene⟩
        rcases List.mem_cons.mp he with rfl | he'
        · exact absurd hev hene
        · exact ⟨e, he', hene⟩
      exact ih _ hrest
    · exact lastCitations_ne_nil_of_acc rest _
        (by rw [if_pos (List.length_pos.mpr hev)]; exact hev)

/-- C8 (counterexample): for the current streaming endpoint
(`src/app/assistant/api/stream/route.ts`), an upstream stream consisting
of one `data:` line whose JSON payload carries a `citations` array does
not produce "content followed by an appended citation list": the route
never parses citations, so the client receives the raw payload and no
`Sources:` block is ever written. -/
theorem processStreamRelay_never_appends_sources :
    processStreamRelay 0
        [(0, "data: " ++ "\x7b\"choices\":[\x7b\"delta\":\x7b\"content\":\"Hi.\"\x7d\x7d],\"citations\":[\"https://a.com\"]\x7d")] =
      "\x7b\"choices\":[\x7b\"delta\":\x7b\"content\":\"Hi.\"\x7d\x7d],\"citations\":[\"https://a.com\"]\x7d" ∧
    jsIncludes
      "\x7b\"choices\":[\x7b\"delta\":\x7b\"content\":\"Hi.\"\x7d\x7d],\"citations\":[\"https://a.com\"]\x7d"
      "citations" = true ∧
    jsIncludes
      (processStreamRelay 0
        [(0, "data: " ++ "\x7b\"choices\":[\x7b\"delta\":\x7b\"content\":\"Hi.\"\x7d\x7d],\"citations\":[\"https://a.com\"]\x7d")])
      "Sources:" = false := by
  decide

/-- C8 (amended): the earlier streaming route variant
(`src/unnamed/part_001`, `processStream`) does satisfy the claim: for
every upstream stream that yields at least one non-empty citation list,
the client output is exactly the concatenated content deltas followed by
the `Sources:` block for the last citation list received, with nothing
written after it. -/
theorem processStreamV1_appends_citations (events : List StreamEvent)
    (h : ∃ ev ∈ events, ev.citations ≠ []) :
    processStreamV1 events = deltaConcat events ++ citationsText (lastCitations events) := by
  have hne : lastCitations events ≠ [] := lastCitations_ne_nil events [] h
  simp only [processStreamV1, foldl_v1Step]
  rw [String.empty_append]
  have hcond : 0 <
      (events.foldl (fun acc ev => if 0 < ev.citations.length then ev.citations else acc)
        []).length :=
    List.length_pos.mpr hne
  rw [if_pos hcond]
  rfl

/-- Witness for C8 (amended): a one-event stream with a content delta
and one citation satisfies the hypothesis, and applying the theorem
there yields its conclusion. -/
theorem processStreamV1_appends_citations_witness :
    (∃ ev ∈ [StreamEvent.mk (some "Hi.") ["https://a.com"]], ev.citations ≠ []) ∧
    processStreamV1 [StreamEvent.mk (some "Hi.") ["https://a.com"]] =
      deltaConcat [StreamEvent.mk (some "Hi.") ["https://a.com"]] ++
        citationsText (lastCitations [StreamEvent.mk (some "Hi.") ["https://a.com"]]) :=
  ⟨by decide, processStreamV1_appends_citations _ (by decide)⟩

/-- C10 (code bug): the sentence-buffered relay drops content even when
raw forwarding is in effect.  After the first flush, `processedLength`
is set to the flushed buffer's length but never reset when
`contentBuffer` is cleared (lines 206-224), so the next flush slices the
new buffer from a stale offset: with two complete-sentence payloads of
53 and 51 characters, the second payload is discarded entirely and the
client receives only the first, not the concatenation of both. -/
theorem processStreamRelay_drops_content :
    processStreamRelay 0
        [(0, "data: " ++ "The market rallied strongly today on upbeat earnings."),
          (0, "data: " ++ "Tech stocks led the gains across all major indexes.")] =
      "The market rallied strongly today on upbeat earnings." ∧
    processStreamRelay 0
        [(0, "data: " ++ "The market rallied strongly today on upbeat earnings."),
          (0, "data: " ++ "Tech stocks led the gains across all major indexes.")] ≠
      "The market rallied strongly today on upbeat earnings." ++
        "Tech stocks led the gains across all major indexes." := by
  decide

end Newsin
